import Mathlib

/-!
# Verification of the `select-random-fastx` sampling planner and extraction engine

This file gives a shallow embedding of `src/main.rs` of the
`select-random-fastx` repository and proves properties of it.

Modelling conventions:

* A fastx input file is modelled as the list of its (already parsed) records;
  low-level record parsing and the fasta/fastq grammars are external
  collaborators and out of scope, so the record type is an arbitrary `α`.
  Format detection (lines 169–177 of `main.rs`) is orthogonal to every claim
  treated here and is omitted.
* `u64` and `usize` values are modelled as `Nat` with explicit capacity
  checks exactly where the source performs `checked_add`; an unchecked Rust
  `+=` on `u64` is modelled as addition modulo `2^64` (release-build
  wrap-around semantics).
* A Rust `panic!` (a failed `unwrap` or `assert!`) is modelled as the
  distinguished outcome `Fail.panicked`, while a `Result::Err` surfaced via
  `?` is modelled by the other `Fail` constructors, one per distinct error
  message template of the source.
* The pseudo-random generator (`Xoshiro512PlusPlus`, a single stream shared
  by all components) is modelled as a function `seed : Nat → Nat` together
  with an explicit stream position that each random component advances; a
  component consuming a draw reads `seed pos` and moves to `pos + 1`.  A
  uniform draw from `[0, n)` is modelled as `seed pos % n`, and a
  `WeightedIndex` draw as a uniform draw from `[0, total_weight)` resolved
  through the cumulative weights, matching the documented behaviour of
  `rand` 0.8.
-/

namespace SelectRandomFastx

/-- Outcomes of a fallible step of the program.  `panicked` models a Rust
panic (failed `unwrap`/`assert!`); the remaining constructors model the
distinct `Err(String)` messages of `main.rs`. -/
inductive Fail where
  /-- A failed `unwrap()` or `assert!` aborts the process. -/
  | panicked
  /-- The "Overflow (>2^64) when counting records in file ..." error (line 163). -/
  | overflowCount
  /-- The "Overflow ... when assigning random draws to file" error (lines 201, 249). -/
  | overflowTally
  /-- The "Error updating random weights: ..." error (line 259). -/
  | weightUpdate
deriving DecidableEq, Repr

instance {ε α : Type} [DecidableEq ε] [DecidableEq α] : DecidableEq (Except ε α) := fun a b =>
  match a, b with
  | .ok x, .ok y =>
    if h : x = y then .isTrue (by rw [h]) else .isFalse (by simp [h])
  | .error x, .error y =>
    if h : x = y then .isTrue (by rw [h]) else .isFalse (by simp [h])
  | .ok _, .error _ => .isFalse (by simp)
  | .error _, .ok _ => .isFalse (by simp)

/-- Capacity of a `u64` counter: values live in `[0, U64CAP)`. -/
def U64CAP : Nat := 2 ^ 64

/-- Capacity of a `usize` counter (64-bit target, as in the overflow
messages `2^{mem::size_of::<usize>() * 8}` of lines 203 and 251). -/
def USIZECAP : Nat := 2 ^ 64

/-! ## Cataloguer (lines 148–179): counting records per file -/

/-- The record-counting loop of lines 155–165: starting from `acc`, one
`checked_add(1)` per record of the file; `None` from `checked_add` becomes
the "Overflow (>2^64) when counting records" error. -/
def countLoop : Nat → List α → Except Fail Nat
  | acc, [] => .ok acc
  | acc, _ :: rest =>
    if acc + 1 < U64CAP then countLoop (acc + 1) rest else .error .overflowCount

/-- Record count of one file (`entry_count` of lines 155–165): the counting
loop started from `0`. -/
def countRecords (file : List α) : Except Fail Nat :=
  countLoop 0 file

/-- The cataloguing loop of lines 151–178: accumulates
`entry_count_per_file` (one `push` per file) and the running sum
`entry_count_sum += entry_count`.  The running sum is an *unchecked* `u64`
addition in the source, hence the `% U64CAP`. -/
def cataloguerGo (counts : List Nat) (sum : Nat) : List (List α) → Except Fail (List Nat × Nat)
  | [] => .ok (counts, sum)
  | file :: rest =>
    match countRecords file with
    | .error e => .error e
    | .ok c => cataloguerGo (counts ++ [c]) ((sum + c) % U64CAP) rest

/-- The Cataloguer: per-file record counts and their running sum
(lines 148–179 of `main.rs`, format detection omitted). -/
def cataloguer (files : List (List α)) : Except Fail (List Nat × Nat) :=
  cataloguerGo [] 0 files

/-! ## The weighted-index distribution (`rand` 0.8 `WeightedIndex`) -/

/-- `WeightedIndex::new` of `rand` 0.8: fails (`NoItem`) on an empty weight
sequence and (`AllWeightsZero`) when the total weight is zero; otherwise it
holds the given weights.  The program calls `.unwrap()` on the result, so a
failing construction is a panic at the call sites (lines 198 and 244). -/
def weightedIndexNew (weights : List Nat) : Option (List Nat) :=
  if weights.isEmpty ∨ weights.sum = 0 then none else some weights

/-- One `WeightedIndex` draw: the sampled value `r` is uniform on
`[0, total_weight)` and is resolved against the cumulative weights, i.e. it
returns the first index whose cumulative weight exceeds `r`.  An index of
weight `0` can never be returned. -/
def weightedIndexSample : List Nat → Nat → Nat
  | [], _ => 0
  | w :: ws, r => if r < w then 0 else weightedIndexSample ws (r - w) + 1

/-! ## Draw Planner (lines 192–263): distributing `amount` draws over files -/

/-- The `checked_add(1)` on one cell of `amount_per_file` (lines 200–206 and
248–254); overflowing the `usize` tally is the "Overflow … when assigning
random draws to file" error. -/
def checkedIncr (tally : List Nat) (i : Nat) : Except Fail (List Nat) :=
  if tally.getD i 0 + 1 < USIZECAP then .ok (tally.set i (tally.getD i 0 + 1))
  else .error .overflowTally

/-- The with-repetition planning loop (lines 199–208): each of the `n`
iterations draws a file index from the fixed weights `counts` and increments
its tally with `checked_add`.  Consumes one RNG value per iteration. -/
def planWithRepLoop (counts : List Nat) (seed : Nat → Nat) :
    Nat → List Nat → Nat → Except Fail (List Nat × Nat)
  | 0, tally, pos => .ok (tally, pos)
  | n + 1, tally, pos =>
    match checkedIncr tally (weightedIndexSample counts (seed pos % counts.sum)) with
    | .error e => .error e
    | .ok tally' => planWithRepLoop counts seed n tally' (pos + 1)

/-- The with-repetition Draw Planner (lines 194–208): builds the weighted
distribution from `entry_count_per_file` (panicking if that fails, line 198)
and runs `amount` draws over the *fixed* weights. -/
def planWithRep (counts : List Nat) (amount : Nat) (seed : Nat → Nat) (pos : Nat) :
    Except Fail (List Nat × Nat) :=
  match weightedIndexNew counts with
  | none => .error .panicked
  | some _ => planWithRepLoop counts seed amount (List.replicate counts.length 0) pos

/-- The without-repetition planning loop (lines 245–262): each iteration
draws a file index from the *current remaining* counts, increments its tally
with `checked_add`, decrements its remaining count, and then calls
`update_weights` with the new weight.  `rand` 0.8's `update_weights` returns
`Err(AllWeightsZero)` whenever the updated total weight is zero, which the
program surfaces as the "Error updating random weights" failure — note that
this happens even on the very last draw. -/
def planNoRepLoop (seed : Nat → Nat) :
    Nat → List Nat → List Nat → Nat → Except Fail (List Nat × Nat)
  | 0, _, tally, pos => .ok (tally, pos)
  | n + 1, remaining, tally, pos =>
    let i := weightedIndexSample remaining (seed pos % remaining.sum)
    match checkedIncr tally i with
    | .error e => .error e
    | .ok tally' =>
      let remaining' := remaining.set i (remaining.getD i 0 - 1)
      if remaining'.sum = 0 then .error .weightUpdate
      else planNoRepLoop seed n remaining' tally' (pos + 1)

/-- The without-repetition Draw Planner (lines 239–263): builds the weighted
distribution from `entry_count_per_file` (panicking if that fails, line 244)
and runs `amount` sequential urn draws with re-weighting after every draw. -/
def planWithoutRep (counts : List Nat) (amount : Nat) (seed : Nat → Nat) (pos : Nat) :
    Except Fail (List Nat × Nat) :=
  match weightedIndexNew counts with
  | none => .error .panicked
  | some _ => planNoRepLoop seed amount counts (List.replicate counts.length 0) pos

/-! ## Index Selector (lines 224–232 and 278–284) -/

/-- `Vec::resize(n, v)`: truncate to `n` elements, or pad with `v` up to
`n` (line 283 only ever truncates, guarded by the assert of line 278). -/
def vecResize (l : List α) (n : Nat) (v : α) : List α :=
  if n ≤ l.length then l.take n else l ++ List.replicate (n - l.length) v

/-- The in-place swap performed by one Fisher–Yates step: exchange the
elements at positions `i` and `j` (identity when either is out of range). -/
def listSwap (l : List α) (i j : Nat) : List α :=
  match l[i]?, l[j]? with
  | some a, some b => (l.set i b).set j a
  | _, _ => l

/-- `rand` 0.8 `SliceRandom::shuffle` (Fisher–Yates), counting down:
`for i in (1..len).rev() { swap(i, gen_range(0..=i)) }`.  The argument is
the current `i`; one RNG value is consumed per iteration, reduced modulo
`i + 1` to model `gen_range(0..=i)`. -/
def shuffleGo (seed : Nat → Nat) : Nat → List α → Nat → List α × Nat
  | 0, l, pos => (l, pos)
  | k + 1, l, pos => shuffleGo seed k (listSwap l (k + 1) (seed pos % (k + 2))) (pos + 1)

/-- Shuffle a whole list (line 282: `indices.shuffle(&mut rng)`); consumes
`length - 1` RNG values. -/
def shuffleList (l : List α) (seed : Nat → Nat) (pos : Nat) : List α × Nat :=
  shuffleGo seed (l.length - 1) l pos

/-- The without-repetition Index Selector (lines 278–284): `assert!` that
`entry_count >= amount_per_file` (a failed assert is a panic), then collect
`0..entry_count`, shuffle, `resize` down to `amount_per_file`, and
`sort_unstable`.  Sorting is modelled by `insertionSort`: over `Nat` with
`≤` every sorting algorithm produces the same list, so this coincides with
`sort_unstable`. -/
def selectWithoutRep (entryCount amountPerFile : Nat) (seed : Nat → Nat) (pos : Nat) :
    Except Fail (List Nat × Nat) :=
  if entryCount < amountPerFile then .error .panicked
  else
    let (shuffled, pos') := shuffleList (List.range entryCount) seed pos
    .ok (List.insertionSort (· ≤ ·) (vecResize shuffled amountPerFile 0), pos')

/-- `amount` independent uniform draws from `[0, entryCount)`
(lines 228–231: `Uniform::new(0, entry_count).sample_iter(..).take(..)`);
consumes `amount` RNG values. -/
def sampleUniformList (entryCount amount : Nat) (seed : Nat → Nat) (pos : Nat) :
    List Nat × Nat :=
  ((List.range amount).map fun k => seed (pos + k) % entryCount, pos + amount)

/-- The with-repetition Index Selector (lines 224–232): `Uniform::new(0,
entry_count)` panics when the range is empty (`entry_count = 0`; its callers
only reach this with a positive per-file amount), then `amount_per_file`
independent uniform draws, then `sort_unstable` (see `selectWithoutRep` on
the sorting model). -/
def selectWithRep (entryCount amountPerFile : Nat) (seed : Nat → Nat) (pos : Nat) :
    Except Fail (List Nat × Nat) :=
  if entryCount = 0 then .error .panicked
  else
    let (indices, pos') := sampleUniformList entryCount amountPerFile seed pos
    .ok (List.insertionSort (· ≤ ·) indices, pos')

/-! ## Streaming Extractor: `copy_entries` (lines 77–124) -/

/-- Result of one `copy_entries` call: the records written (each under its
decimal identifier), the output writer's `next_index` afterwards, and the
final reader cursor `current_index` (the reader has read the records at
positions `0..=cursor`, each exactly once, strictly forward). -/
structure CopyOut (α : Type) where
  emitted : List (String × α)
  next : Nat
  cursor : Nat
deriving DecidableEq, Repr

/-- The `while next_index > current_index` loop of lines 94–100, running
`gap` times: each step advances `current_index` by one and reads the next
record from the reader; reading past the end of the file is a failed
`unwrap()` of `None`, i.e. a panic. -/
def advanceRead (records : List α) : Nat → α → Nat → Option (Nat × α)
  | cur, held, 0 => some (cur, held)
  | cur, _, gap + 1 =>
    match records[cur + 1]? with
    | none => none
    | some r => advanceRead records (cur + 1) r gap

/-- The main loop of `copy_entries` (lines 93–121): for each requested
index, advance the cursor while it is behind (`next_index > current_index`
runs exactly `i - cur` times over `Nat`), then write the held record under
the decimal form of the writer's `next_index` and increment that counter.
A repeated index has gap `0` and re-emits the held record without reading. -/
def copyGo (records : List α) : List Nat → Nat → Nat → α → Except Fail (CopyOut α)
  | [], next, cur, _ => .ok ⟨[], next, cur⟩
  | i :: rest, next, cur, held =>
    match advanceRead records cur held (i - cur) with
    | none => .error .panicked
    | some (cur', held') =>
      match copyGo records rest (next + 1) cur' held' with
      | .error e => .error e
      | .ok out => .ok ⟨(Nat.repr next, held') :: out.emitted, out.next, out.cursor⟩

/-- `copy_entries` (lines 77–124): unconditionally reads the first record of
the file (lines 88–91) — on a file with no records this is a failed
`unwrap`, i.e. a panic — and then runs the copying loop from cursor `0`.
`next` is the output writer's `next_index` on entry. -/
def copyEntries (records : List α) (indices : List Nat) (next : Nat) :
    Except Fail (CopyOut α) :=
  match records[0]? with
  | none => .error .panicked
  | some r => copyGo records indices next 0 r

/-- The last element of a list of indices, or `d` when the list is empty:
the final reader cursor of a `copy_entries` run over a sorted demand
sequence. -/
def lastOr (d : Nat) : List Nat → Nat
  | [] => d
  | i :: rest => lastOr i rest

/-- Specification value of the records written by the `copy_entries` loop:
the requested indices resolved in the file, each paired with the next
consecutive decimal identifier starting from `next`. -/
def emitSpec (records : List α) (d : α) : Nat → List Nat → List (String × α)
  | _, [] => []
  | next, i :: rest => (Nat.repr next, records.getD i d) :: emitSpec records d (next + 1) rest

/-! ## The three output-producing passes of `main` -/

/-- The with-repetition extraction pass (lines 215–235): files are visited
in input order zipped with their entry counts and planned amounts; a file
with amount `0` is skipped; otherwise its indices are drawn and sorted and
`copy_entries` runs.  The efficiency warning of lines 224–226 has no effect
on behaviour and is not modelled. -/
def extractWithRep (seed : Nat → Nat) :
    List (Nat × Nat × List α) → Nat → Nat → Except Fail (List (String × α) × Nat × Nat)
  | [], next, pos => .ok ([], next, pos)
  | (c, a, file) :: rest, next, pos =>
    if a = 0 then extractWithRep seed rest next pos
    else
      match selectWithRep c a seed pos with
      | .error e => .error e
      | .ok (indices, pos') =>
        match copyEntries file indices next with
        | .error e => .error e
        | .ok out =>
          match extractWithRep seed rest out.next pos' with
          | .error e => .error e
          | .ok (more, next', pos'') => .ok (out.emitted ++ more, next', pos'')

/-- The without-repetition extraction pass (lines 265–287): like
`extractWithRep` but drawing distinct indices via shuffle-and-truncate. -/
def extractWithoutRep (seed : Nat → Nat) :
    List (Nat × Nat × List α) → Nat → Nat → Except Fail (List (String × α) × Nat × Nat)
  | [], next, pos => .ok ([], next, pos)
  | (c, a, file) :: rest, next, pos =>
    if a = 0 then extractWithoutRep seed rest next pos
    else
      match selectWithoutRep c a seed pos with
      | .error e => .error e
      | .ok (indices, pos') =>
        match copyEntries file indices next with
        | .error e => .error e
        | .ok out =>
          match extractWithoutRep seed rest out.next pos' with
          | .error e => .error e
          | .ok (more, next', pos'') => .ok (out.emitted ++ more, next', pos'')

/-- The concatenation pass (lines 291–303): files in input order zipped with
their entry counts; empty files are skipped; every index `0..entry_count` of
the others is copied. -/
def concatGo : List (Nat × List α) → Nat → Except Fail (List (String × α) × Nat)
  | [], next => .ok ([], next)
  | (c, file) :: rest, next =>
    if c = 0 then concatGo rest next
    else
      match copyEntries file (List.range c) next with
      | .error e => .error e
      | .ok out =>
        match concatGo rest out.next with
        | .error e => .error e
        | .ok (more, next') => .ok (out.emitted ++ more, next')

/-- The whole program after argument parsing (lines 126–311): catalogue the
files, then either plan and extract (`--amount`, with the regime chosen by
`--allow-repetitions`) or concatenate.  The output writer starts with
`next_index = 0` (line 188); the RNG stream starts unconsumed.  The result
is the sequence of written records, each under its identifier. -/
def runProgram (files : List (List α)) (amount : Option Nat) (allowRep : Bool)
    (seed : Nat → Nat) : Except Fail (List (String × α)) :=
  match cataloguer files with
  | .error e => .error e
  | .ok (counts, _sum) =>
    match amount with
    | some amt =>
      if allowRep then
        match planWithRep counts amt seed 0 with
        | .error e => .error e
        | .ok (tally, pos) =>
          match extractWithRep seed (counts.zip (tally.zip files)) 0 pos with
          | .error e => .error e
          | .ok (out, _, _) => .ok out
      else
        match planWithoutRep counts amt seed 0 with
        | .error e => .error e
        | .ok (tally, pos) =>
          match extractWithoutRep seed (counts.zip (tally.zip files)) 0 pos with
          | .error e => .error e
          | .ok (out, _, _) => .ok out
    | none =>
      match concatGo (counts.zip files) 0 with
      | .error e => .error e
      | .ok (out, _) => .ok out

/-! ## Generic list lemmas -/

lemma getD_set_self (l : List Nat) (i x : Nat) (h : i < l.length) :
    (l.set i x).getD i 0 = x := by
  simp [List.getD_eq_getElem?_getD, List.getElem?_set_self', h]

lemma getD_set_ne (l : List Nat) {i j : Nat} (x : Nat) (h : i ≠ j) :
    (l.set i x).getD j 0 = l.getD j 0 := by
  simp [List.getD_eq_getElem?_getD, List.getElem?_set_ne h]

lemma getD_replicate_zero (n i : Nat) : (List.replicate n (0 : Nat)).getD i 0 = 0 := by
  simp only [List.getD_eq_getElem?_getD, List.getElem?_replicate]
  split <;> rfl

lemma sum_set_add (l : List Nat) (i x : Nat) (h : i < l.length) :
    (l.set i x).sum + l.getD i 0 = l.sum + x := by
  induction l generalizing i with
  | nil => simp at h
  | cons a t ih =>
    cases i with
    | zero => simp [List.getD_cons_zero]; omega
    | succ n =>
      simp only [List.set_cons_succ, List.sum_cons, List.getD_cons_succ]
      have := ih n (by simpa using h)
      omega

lemma getD_pos_lt_length {l : List Nat} {i : Nat} (h : 0 < l.getD i 0) : i < l.length := by
  by_contra hc
  rw [List.getD_eq_getElem?_getD, List.getElem?_eq_none (by omega)] at h
  simp at h

/-! ## Cataloguer lemmas -/

lemma countLoop_ok {α : Type} (file : List α) :
    ∀ acc, acc + file.length < U64CAP → countLoop acc file = .ok (acc + file.length) := by
  induction file with
  | nil => intro acc _; simp [countLoop]
  | cons x rest ih =>
    intro acc h
    simp only [List.length_cons] at h
    rw [countLoop, if_pos (by omega), ih (acc + 1) (by omega)]
    simp only [List.length_cons]
    congr 1
    omega

lemma countLoop_overflow {α : Type} (file : List α) :
    ∀ acc, acc < U64CAP → U64CAP ≤ acc + file.length →
    countLoop acc file = .error .overflowCount := by
  induction file with
  | nil => intro acc h1 h2; simp at h1 h2; omega
  | cons x rest ih =>
    intro acc h1 h2
    simp only [List.length_cons] at h2
    rw [countLoop]
    by_cases hlt : acc + 1 < U64CAP
    · rw [if_pos hlt, ih (acc + 1) hlt (by omega)]
    · rw [if_neg hlt]

lemma countRecords_ok {α : Type} (file : List α) (h : file.length < U64CAP) :
    countRecords file = .ok file.length := by
  simpa using countLoop_ok file 0 (by omega)

lemma countRecords_overflow {α : Type} (file : List α) (h : U64CAP ≤ file.length) :
    countRecords file = .error .overflowCount := by
  have : (0 : Nat) < U64CAP := by norm_num [U64CAP]
  simpa using countLoop_overflow file 0 this (by omega)

lemma cataloguerGo_ok {α : Type} :
    ∀ (files : List (List α)) (counts : List Nat) (sum : Nat),
    (∀ f ∈ files, f.length < U64CAP) → sum < U64CAP →
    cataloguerGo counts sum files =
      .ok (counts ++ files.map List.length, (sum + (files.map List.length).sum) % U64CAP) := by
  intro files
  induction files with
  | nil =>
    intro counts sum _ hsum
    simp [cataloguerGo, Nat.mod_eq_of_lt hsum]
  | cons f rest ih =>
    intro counts sum hall hsum
    have hf : f.length < U64CAP := hall f (List.mem_cons_self f rest)
    simp only [cataloguerGo, countRecords_ok f hf]
    have hmod : (sum + f.length) % U64CAP < U64CAP :=
      Nat.mod_lt _ (by norm_num [U64CAP])
    rw [ih (counts ++ [f.length]) _ (fun g hg => hall g (List.mem_cons_of_mem f hg)) hmod]
    simp only [List.map_cons, List.sum_cons]
    congr 2
    · simp
    · rw [Nat.mod_add_mod, Nat.add_assoc]

lemma cataloguerGo_overflow {α : Type} :
    ∀ (files : List (List α)) (counts : List Nat) (sum : Nat),
    (∃ f ∈ files, U64CAP ≤ f.length) →
    cataloguerGo counts sum files = .error .overflowCount := by
  intro files
  induction files with
  | nil => rintro _ _ ⟨f, hf, _⟩; simp at hf
  | cons f rest ih =>
    rintro counts sum ⟨g, hg, hglen⟩
    rw [cataloguerGo]
    by_cases hf : U64CAP ≤ f.length
    · rw [countRecords_overflow f hf]
    · push_neg at hf
      rw [countRecords_ok f hf]
      have hgr : g ∈ rest := by
        rcases List.mem_cons.mp hg with h | h
        · exact absurd hglen (by rw [h]; omega)
        · exact h
      exact ih _ _ ⟨g, hgr, hglen⟩

lemma cataloguerGo_ok_shape {α : Type} :
    ∀ (files : List (List α)) (counts cs : List Nat) (sum s : Nat),
    cataloguerGo counts sum files = .ok (cs, s) →
    cs = counts ++ files.map List.length := by
  intro files
  induction files with
  | nil =>
    intro counts cs sum s h
    simp only [cataloguerGo, Except.ok.injEq, Prod.mk.injEq] at h
    simp only [List.map_nil, List.append_nil]
    exact h.1.symm
  | cons f rest ih =>
    intro counts cs sum s h
    rw [cataloguerGo] at h
    rcases hc : countRecords f with e | c
    · rw [hc] at h; cases h
    · rw [hc] at h
      have hcl : c = f.length := by
        rcases lt_or_le f.length U64CAP with hlt | hge
        · rw [countRecords_ok f hlt] at hc; cases hc; rfl
        · rw [countRecords_overflow f hge] at hc; cases hc
      have := ih (counts ++ [c]) cs ((sum + c) % U64CAP) s h
      simp [this, hcl]

lemma cataloguer_ok_shape {α : Type} (files : List (List α)) (cs : List Nat) (s : Nat)
    (h : cataloguer files = .ok (cs, s)) : cs = files.map List.length := by
  simpa using cataloguerGo_ok_shape files [] cs 0 s h

/-! ## Theorems for claims C1 and C2 -/

/-- C1: the claim states that without-repetition planning fails (with an
InsufficientEntries error) iff `amount > total_count`.  The code has no such
check: evaluating the planner at `amount = total_count = 2` (two files of
one record each) shows it *fails* although `amount ≤ total_count` — the last
draw zeroes the final remaining weight and `update_weights` rejects the
all-zero weight vector, surfacing the "Error updating random weights"
failure.  The same `weightUpdate` error (not a distinct insufficient-entries
one) is what occurs for `amount > total_count` (second conjunct), while any
`amount < total_count` completes (third conjunct). -/
theorem claim1_no_insufficient_entries_check :
    planWithoutRep [1, 1] 2 (fun _ => 0) 0 = .error .weightUpdate ∧
    ¬ 2 > List.sum [1, 1] ∧
    planWithoutRep [1, 1] 3 (fun _ => 0) 0 = .error .weightUpdate ∧
    planWithoutRep [1, 1] 1 (fun _ => 0) 0 = .ok ([1, 0], 1) := by
  refine ⟨by decide, by decide, by decide, by decide⟩

/-- C2, counterexample: two files of `2^63` records each pass the per-file
overflow checks, yet their total `2^64` exceeds the `u64` capacity; the
Cataloguer nevertheless *succeeds*, with the unchecked running sum wrapped
around to `0`, instead of failing with an Overflow error as the claim
demands. -/
theorem claim2_running_sum_wraps :
    2 ^ 63 + 2 ^ 63 = U64CAP ∧
    cataloguer [List.replicate (2 ^ 63) (0 : Nat), List.replicate (2 ^ 63) (0 : Nat)] =
      .ok ([2 ^ 63, 2 ^ 63], 0) := by
  have hall : ∀ f ∈ [List.replicate (2 ^ 63) (0 : Nat), List.replicate (2 ^ 63) (0 : Nat)],
      f.length < U64CAP := by
    intro f hf
    rcases List.mem_cons.mp hf with h | h
    · rw [h, List.length_replicate]; norm_num [U64CAP]
    · rcases List.mem_cons.mp h with h' | h'
      · rw [h', List.length_replicate]; norm_num [U64CAP]
      · cases h'
  constructor
  · norm_num [U64CAP]
  · rw [cataloguer, cataloguerGo_ok _ [] 0 hall (by norm_num [U64CAP])]
    rw [List.map_cons, List.map_cons, List.map_nil, List.length_replicate]
    norm_num [U64CAP]

/-- C2 (amended): a single per-file count exceeding the `u64` capacity does
fail with the Overflow error, but the running sum is an *unchecked* `u64`
addition: when every per-file count is individually in range the Cataloguer
always succeeds, reporting the total reduced modulo `2^64` (wrapping instead
of failing or panicking). -/
theorem claim2_overflow_handling {α : Type} (files : List (List α)) :
    ((∀ f ∈ files, f.length < U64CAP) →
      cataloguer files =
        .ok (files.map List.length, (files.map List.length).sum % U64CAP)) ∧
    ((∃ f ∈ files, U64CAP ≤ f.length) → cataloguer files = .error .overflowCount) := by
  constructor
  · intro hall
    rw [cataloguer, cataloguerGo_ok files [] 0 hall (by norm_num [U64CAP])]
    simp
  · intro hex
    exact cataloguerGo_overflow files [] 0 hex

/-- C2 witness: the amended theorem evaluated at concrete inputs — small
in-range files succeed with the exact total, and a single file of `2^64`
records fails with the Overflow error. -/
theorem claim2_overflow_handling_witness :
    cataloguer [[0], [0, 0]] = .ok ([1, 2], 3) ∧
    cataloguer [List.replicate (2 ^ 64) (0 : Nat)] = .error .overflowCount := by
  constructor
  · have h := (claim2_overflow_handling [[0], [0, 0]]).1 (by decide)
    simpa [U64CAP] using h
  · exact (claim2_overflow_handling [List.replicate (2 ^ 64) (0 : Nat)]).2
      ⟨List.replicate (2 ^ 64) (0 : Nat), List.mem_cons_self _ _,
        by rw [List.length_replicate, U64CAP]⟩

/-! ## WeightedIndex and Draw Planner lemmas -/

lemma weightedIndexSample_lt_length :
    ∀ (ws : List Nat) (r : Nat), r < ws.sum → weightedIndexSample ws r < ws.length := by
  intro ws
  induction ws with
  | nil => intro r h; simp at h
  | cons w t ih =>
    intro r h
    rw [weightedIndexSample]
    by_cases hr : r < w
    · rw [if_pos hr]; simp
    · rw [if_neg hr]
      have ht : r - w < t.sum := by
        simp only [List.sum_cons] at h; omega
      simpa using Nat.succ_lt_succ (ih _ ht)

lemma weightedIndexSample_pos :
    ∀ (ws : List Nat) (r : Nat), r < ws.sum → 0 < ws.getD (weightedIndexSample ws r) 0 := by
  intro ws
  induction ws with
  | nil => intro r h; simp at h
  | cons w t ih =>
    intro r h
    rw [weightedIndexSample]
    by_cases hr : r < w
    · rw [if_pos hr, List.getD_cons_zero]; omega
    · rw [if_neg hr, List.getD_cons_succ]
      have ht : r - w < t.sum := by
        simp only [List.sum_cons] at h; omega
      exact ih _ ht

lemma checkedIncr_ok {tally : List Nat} {i : Nat} {t' : List Nat}
    (h : checkedIncr tally i = .ok t') :
    t' = tally.set i (tally.getD i 0 + 1) := by
  rw [checkedIncr] at h
  split at h
  · cases h; rfl
  · cases h

lemma planWithRepLoop_spec (counts : List Nat) (seed : Nat → Nat) (hsum : counts.sum ≠ 0) :
    ∀ (n : Nat) (tally : List Nat) (pos : Nat) (t : List Nat) (p' : Nat),
    tally.length = counts.length →
    planWithRepLoop counts seed n tally pos = .ok (t, p') →
    t.length = counts.length ∧ t.sum = tally.sum + n ∧ p' = pos + n ∧
    (∀ i, counts.getD i 0 = 0 → t.getD i 0 = tally.getD i 0) := by
  intro n
  induction n with
  | zero =>
    intro tally pos t p' hlen h
    rw [planWithRepLoop] at h
    simp only [Except.ok.injEq, Prod.mk.injEq] at h
    obtain ⟨rfl, rfl⟩ := h
    exact ⟨hlen, by omega, by omega, fun i _ => rfl⟩
  | succ n ih =>
    intro tally pos t p' hlen h
    have hrlt : seed pos % counts.sum < counts.sum := Nat.mod_lt _ (Nat.pos_of_ne_zero hsum)
    have hilt : weightedIndexSample counts (seed pos % counts.sum) < counts.length :=
      weightedIndexSample_lt_length _ _ hrlt
    have hipos : 0 < counts.getD (weightedIndexSample counts (seed pos % counts.sum)) 0 :=
      weightedIndexSample_pos _ _ hrlt
    rcases hc : checkedIncr tally (weightedIndexSample counts (seed pos % counts.sum))
      with e | tally'
    · simp only [planWithRepLoop, hc] at h
      cases h
    · simp only [planWithRepLoop, hc] at h
      have ht' := checkedIncr_ok hc
      have hlen' : tally'.length = counts.length := by
        rw [ht', List.length_set]; exact hlen
      obtain ⟨l1, l2, l3, l4⟩ := ih tally' (pos + 1) t p' hlen' h
      refine ⟨l1, ?_, by omega, ?_⟩
      · rw [ht'] at l2
        have hset := sum_set_add tally (weightedIndexSample counts (seed pos % counts.sum))
          (tally.getD (weightedIndexSample counts (seed pos % counts.sum)) 0 + 1)
          (by rw [hlen]; exact hilt)
        omega
      · intro j hj
        have hji : j ≠ weightedIndexSample counts (seed pos % counts.sum) := by
          intro hji; rw [hji] at hj; omega
        rw [l4 j hj, ht', getD_set_ne _ _ (Ne.symm hji)]

lemma weightedIndexNew_some_sum {counts ws : List Nat}
    (h : weightedIndexNew counts = some ws) : counts.sum ≠ 0 := by
  rw [weightedIndexNew] at h
  split at h
  · cases h
  · rename_i hcond
    push_neg at hcond
    exact hcond.2

lemma planWithRep_spec {counts : List Nat} {amount : Nat} {seed : Nat → Nat} {pos : Nat}
    {t : List Nat} {p' : Nat} (h : planWithRep counts amount seed pos = .ok (t, p')) :
    t.length = counts.length ∧ t.sum = amount ∧ p' = pos + amount ∧
    (∀ i, counts.getD i 0 = 0 → t.getD i 0 = 0) := by
  rcases hw : weightedIndexNew counts with _ | ws
  · simp only [planWithRep, hw] at h
    cases h
  · simp only [planWithRep, hw] at h
    have hsum := weightedIndexNew_some_sum hw
    obtain ⟨l1, l2, l3, l4⟩ := planWithRepLoop_spec counts seed hsum amount
      (List.replicate counts.length 0) pos t p' (by simp) h
    refine ⟨l1, ?_, l3, ?_⟩
    · rw [l2]; simp
    · intro i hi
      rw [l4 i hi, getD_replicate_zero]

lemma planNoRepLoop_spec (seed : Nat → Nat) (counts : List Nat) :
    ∀ (n : Nat) (remaining tally : List Nat) (pos : Nat) (t : List Nat) (p' : Nat),
    remaining.length = counts.length → tally.length = counts.length →
    remaining.sum ≠ 0 →
    (∀ i, tally.getD i 0 + remaining.getD i 0 = counts.getD i 0) →
    planNoRepLoop seed n remaining tally pos = .ok (t, p') →
    t.length = counts.length ∧ t.sum = tally.sum + n ∧ p' = pos + n ∧
    (∀ i, t.getD i 0 ≤ counts.getD i 0) := by
  intro n
  induction n with
  | zero =>
    intro remaining tally pos t p' hrlen htlen hrs hinv h
    rw [planNoRepLoop] at h
    simp only [Except.ok.injEq, Prod.mk.injEq] at h
    obtain ⟨rfl, rfl⟩ := h
    exact ⟨htlen, by omega, by omega, fun i => by have := hinv i; omega⟩
  | succ n ih =>
    intro remaining tally pos t p' hrlen htlen hrs hinv h
    have hrlt : seed pos % remaining.sum < remaining.sum :=
      Nat.mod_lt _ (Nat.pos_of_ne_zero hrs)
    have hilt : weightedIndexSample remaining (seed pos % remaining.sum) < remaining.length :=
      weightedIndexSample_lt_length _ _ hrlt
    have hipos : 0 < remaining.getD (weightedIndexSample remaining (seed pos % remaining.sum)) 0 :=
      weightedIndexSample_pos _ _ hrlt
    rcases hc : checkedIncr tally (weightedIndexSample remaining (seed pos % remaining.sum))
      with e | tally'
    · simp only [planNoRepLoop, hc] at h
      cases h
    · simp only [planNoRepLoop, hc] at h
      split at h
      · cases h
      · rename_i hz
        have ht' := checkedIncr_ok hc
        have hilt' : weightedIndexSample remaining (seed pos % remaining.sum) < counts.length := by
          rw [← hrlen]; exact hilt
        obtain ⟨l1, l2, l3, l4⟩ := ih
          (remaining.set (weightedIndexSample remaining (seed pos % remaining.sum))
            (remaining.getD (weightedIndexSample remaining (seed pos % remaining.sum)) 0 - 1))
          tally' (pos + 1) t p'
          (by rw [List.length_set]; exact hrlen)
          (by rw [ht', List.length_set]; exact htlen)
          hz
          (by
            intro j
            by_cases hji : j = weightedIndexSample remaining (seed pos % remaining.sum)
            · rw [hji, ht', getD_set_self _ _ _ (by rw [htlen]; exact hilt'),
                getD_set_self _ _ _ hilt]
              have := hinv (weightedIndexSample remaining (seed pos % remaining.sum))
              omega
            · rw [ht', getD_set_ne _ _ (fun hh => hji hh.symm),
                getD_set_ne _ _ (fun hh => hji hh.symm)]
              exact hinv j)
          h
        refine ⟨l1, ?_, by omega, l4⟩
        rw [ht'] at l2
        have hset := sum_set_add tally (weightedIndexSample remaining (seed pos % remaining.sum))
          (tally.getD (weightedIndexSample remaining (seed pos % remaining.sum)) 0 + 1)
          (by rw [htlen]; exact hilt')
        omega

lemma planWithoutRep_spec {counts : List Nat} {amount : Nat} {seed : Nat → Nat} {pos : Nat}
    {t : List Nat} {p' : Nat} (h : planWithoutRep counts amount seed pos = .ok (t, p')) :
    t.length = counts.length ∧ t.sum = amount ∧ p' = pos + amount ∧
    (∀ i, t.getD i 0 ≤ counts.getD i 0) := by
  rcases hw : weightedIndexNew counts with _ | ws
  · simp only [planWithoutRep, hw] at h
    cases h
  · simp only [planWithoutRep, hw] at h
    have hsum := weightedIndexNew_some_sum hw
    obtain ⟨l1, l2, l3, l4⟩ := planNoRepLoop_spec seed counts amount counts
      (List.replicate counts.length 0) pos t p' rfl (by simp) hsum
      (fun i => by rw [getD_replicate_zero]; omega) h
    exact ⟨l1, by rw [l2]; simp, l3, l4⟩

/-! ## Theorems for claims C4, C5, C8, C10 -/

/-- C4: in both sampling regimes, whenever the Draw Planner completes
without error (in particular no tally overflow occurred), the per-file
tallies sum to exactly the requested amount. -/
theorem claim4_tallies_sum_to_amount (counts : List Nat) (amount : Nat) (seed : Nat → Nat)
    (pos : Nat) :
    (∀ t p', planWithRep counts amount seed pos = .ok (t, p') → t.sum = amount) ∧
    (∀ t p', planWithoutRep counts amount seed pos = .ok (t, p') → t.sum = amount) :=
  ⟨fun _ _ h => (planWithRep_spec h).2.1, fun _ _ h => (planWithoutRep_spec h).2.1⟩

/-- C4 witness: both planners evaluated on two files with counts `[1, 2]`
and `amount = 2` under the constant-zero RNG stream. -/
theorem claim4_tallies_sum_to_amount_witness :
    List.sum [2, 0] = 2 ∧ List.sum [1, 1] = 2 :=
  ⟨(claim4_tallies_sum_to_amount [1, 2] 2 (fun _ => 0) 0).1 [2, 0] 2 (by decide),
   (claim4_tallies_sum_to_amount [1, 2] 2 (fun _ => 0) 0).2 [1, 1] 2 (by decide)⟩

/-- C5: in the without-repetition regime a successfully planned tally never
exceeds the corresponding per-file record count — the invariant
`tally[i] + remaining[i] = count[i]` is maintained across every single
draw, and a draw can only select an index whose remaining weight is
positive. -/
theorem claim5_tally_bounded_by_counts (counts : List Nat) (amount : Nat) (seed : Nat → Nat)
    (pos : Nat) (t : List Nat) (p' : Nat)
    (h : planWithoutRep counts amount seed pos = .ok (t, p')) :
    ∀ i, t.getD i 0 ≤ counts.getD i 0 :=
  (planWithoutRep_spec h).2.2.2

/-- C5 witness: the without-repetition planner on counts `[1, 2]`,
`amount = 2`, constant-zero stream, checked at both file indices. -/
theorem claim5_tally_bounded_by_counts_witness :
    List.getD [1, 1] 0 0 ≤ List.getD [1, 2] 0 0 ∧
    List.getD [1, 1] 1 0 ≤ List.getD [1, 2] 1 0 :=
  ⟨claim5_tally_bounded_by_counts [1, 2] 2 (fun _ => 0) 0 [1, 1] 2 (by decide) 0,
   claim5_tally_bounded_by_counts [1, 2] 2 (fun _ => 0) 0 [1, 1] 2 (by decide) 1⟩

/-- C8: in the with-repetition regime a file with zero records has zero
weight, is never selected by the weighted draw, and therefore ends with a
zero tally whenever planning completes. -/
theorem claim8_zero_count_never_drawn (counts : List Nat) (amount : Nat) (seed : Nat → Nat)
    (pos : Nat) (t : List Nat) (p' : Nat)
    (h : planWithRep counts amount seed pos = .ok (t, p')) :
    ∀ i, counts.getD i 0 = 0 → t.getD i 0 = 0 :=
  (planWithRep_spec h).2.2.2

/-- C8 witness: the with-repetition planner on counts `[0, 2]` with
`amount = 2` assigns both draws to the second file and none to the empty
first file. -/
theorem claim8_zero_count_never_drawn_witness :
    List.getD [0, 2] 0 0 = 0 :=
  claim8_zero_count_never_drawn [0, 2] 2 (fun _ => 0) 0 [0, 2] 2 (by decide) 0 (by decide)

/-- C10: when `--amount` is given, an empty input file list or an input in
which every file has zero records makes `WeightedIndex::new` fail, and the
`.unwrap()` at lines 198 and 244 turns that into a panic (not a surfaced
error `Result`) in both sampling regimes; with at least one nonempty file
the construction succeeds. -/
theorem claim10_weighted_index_unwrap (counts : List Nat) (amount : Nat) (seed : Nat → Nat)
    (pos : Nat) :
    ((counts = [] ∨ ∀ c ∈ counts, c = 0) →
      planWithRep counts amount seed pos = .error .panicked ∧
      planWithoutRep counts amount seed pos = .error .panicked) ∧
    ((∃ c ∈ counts, 0 < c) → (weightedIndexNew counts).isSome = true) := by
  constructor
  · intro hz
    have hw : weightedIndexNew counts = none := by
      rw [weightedIndexNew, if_pos]
      rcases hz with rfl | hall
      · left; rfl
      · right; exact List.sum_eq_zero hall
    exact ⟨by rw [planWithRep, hw], by rw [planWithoutRep, hw]⟩
  · rintro ⟨c, hc, hpos⟩
    rw [weightedIndexNew, if_neg]
    · rfl
    · push_neg
      constructor
      · rcases counts with _ | ⟨a, tl⟩
        · cases hc
        · simp [List.isEmpty]
      · intro hs
        have := (List.sum_eq_zero_iff.mp hs) c hc
        omega

/-- C10 witness: the empty input list panics in both regimes, and counts
`[0, 3]` (one nonempty file) give a successful construction. -/
theorem claim10_weighted_index_unwrap_witness :
    (planWithRep [] 3 (fun _ => 0) 0 = .error .panicked ∧
      planWithoutRep [] 3 (fun _ => 0) 0 = .error .panicked) ∧
    (weightedIndexNew [0, 3]).isSome = true :=
  ⟨(claim10_weighted_index_unwrap [] 3 (fun _ => 0) 0).1 (Or.inl rfl),
   (claim10_weighted_index_unwrap [0, 3] 3 (fun _ => 0) 0).2 ⟨3, by decide, by decide⟩⟩

/-! ## Streaming Extractor lemmas -/

lemma advanceRead_spec {α : Type} (records : List α) (d : α) :
    ∀ (gap cur : Nat), cur + gap < records.length →
    advanceRead records cur (records.getD cur d) gap =
      some (cur + gap, records.getD (cur + gap) d) := by
  intro gap
  induction gap with
  | zero => intro cur _; simp [advanceRead]
  | succ g ih =>
    intro cur h
    have hcur1 : cur + 1 < records.length := by omega
    have hget : records[cur + 1]? = some (records.getD (cur + 1) d) := by
      rw [List.getElem?_eq_getElem hcur1, List.getD_eq_getElem?_getD,
        List.getElem?_eq_getElem hcur1]
      rfl
    simp only [advanceRead, hget]
    have hadd : cur + (g + 1) = cur + 1 + g := by omega
    rw [hadd]
    exact ih (cur + 1) (by omega)

lemma copyGo_spec {α : Type} (records : List α) (d : α) :
    ∀ (indices : List Nat) (next cur : Nat),
    indices.Sorted (· ≤ ·) → (∀ i ∈ indices, cur ≤ i) →
    (∀ i ∈ indices, i < records.length) → cur < records.length →
    copyGo records indices next cur (records.getD cur d) =
      .ok ⟨emitSpec records d next indices, next + indices.length, lastOr cur indices⟩ := by
  intro indices
  induction indices with
  | nil =>
    intro next cur _ _ _ _
    simp [copyGo, emitSpec, lastOr]
  | cons i rest ih =>
    intro next cur hsort hge hlt hcur
    have hi_lt : i < records.length := hlt i (List.mem_cons_self _ _)
    have hcle : cur ≤ i := hge i (List.mem_cons_self _ _)
    have hadv : advanceRead records cur (records.getD cur d) (i - cur) =
        some (i, records.getD i d) := by
      have hs := advanceRead_spec records d (i - cur) cur (by omega)
      rw [show cur + (i - cur) = i from by omega] at hs
      exact hs
    have hrest := ih (next + 1) i (List.Sorted.of_cons hsort)
      (fun j hj => (List.sorted_cons.mp hsort).1 j hj)
      (fun j hj => hlt j (List.mem_cons_of_mem _ hj)) hi_lt
    simp only [copyGo, hadv, hrest, emitSpec, lastOr, List.length_cons]
    rw [show next + 1 + rest.length = next + (rest.length + 1) from by omega]

lemma copyEntries_spec {α : Type} (records : List α) (d : α) (indices : List Nat) (next : Nat)
    (hne : records ≠ [])
    (hsort : indices.Sorted (· ≤ ·))
    (hlt : ∀ i ∈ indices, i < records.length) :
    copyEntries records indices next =
      .ok ⟨emitSpec records d next indices, next + indices.length, lastOr 0 indices⟩ := by
  have hlen : 0 < records.length := List.length_pos.mpr hne
  have h0 : records[0]? = some (records.getD 0 d) := by
    rw [List.getElem?_eq_getElem hlen, List.getD_eq_getElem?_getD,
      List.getElem?_eq_getElem hlen]
    rfl
  simp only [copyEntries, h0]
  exact copyGo_spec records d indices next 0 hsort (fun i _ => Nat.zero_le i) hlt hlen

lemma emitSpec_map_snd {α : Type} (records : List α) (d : α) :
    ∀ (indices : List Nat) (next : Nat),
    (emitSpec records d next indices).map Prod.snd =
      indices.map (fun i => records.getD i d) := by
  intro indices
  induction indices with
  | nil => intro next; rfl
  | cons i rest ih => intro next; simp [emitSpec, ih]

lemma emitSpec_map_fst {α : Type} (records : List α) (d : α) :
    ∀ (indices : List Nat) (next : Nat),
    (emitSpec records d next indices).map Prod.fst =
      (List.range' next indices.length).map Nat.repr := by
  intro indices
  induction indices with
  | nil => intro next; rfl
  | cons i rest ih =>
    intro next
    rw [List.length_cons, List.range'_succ]
    simp [emitSpec, ih]

lemma emitSpec_length {α : Type} (records : List α) (d : α) :
    ∀ (indices : List Nat) (next : Nat),
    (emitSpec records d next indices).length = indices.length := by
  intro indices
  induction indices with
  | nil => intro next; rfl
  | cons i rest ih => intro next; simp [emitSpec, ih]

lemma lastOr_mem : ∀ (l : List Nat) (d : Nat), l ≠ [] → lastOr d l ∈ l := by
  intro l
  induction l with
  | nil => intro d h; cases h rfl
  | cons i rest ih =>
    intro d _
    rcases eq_or_ne rest [] with rfl | hne
    · simp [lastOr]
    · rw [lastOr]
      exact List.mem_cons_of_mem _ (ih i hne)

/-! ## Theorems for claim C3 -/

/-- C3, counterexample: with a file of no records (`n = 0`) and the empty
index sequence — whose values vacuously all lie in `[0, n)` — the extractor
does not emit the (empty) requested record sequence: `copy_entries`
unconditionally reads a first record before consuming any index
(lines 88–91 of `main.rs`), so it panics on the `unwrap` of `None`. -/
theorem claim3_empty_file_panics :
    copyEntries ([] : List Nat) [] 0 = .error .panicked := rfl

/-- C3 (amended): for every file with at least one record and every
ascending (possibly repeating) index sequence with values in `[0, n)`, the
Streaming Extractor emits exactly the records at the requested indices in
sequence order — a repeated index re-emits the held record without
advancing — under consecutive decimal identifiers, and the reader moves
strictly forward through the file, stopping at the last requested index
(reading each of the records `0..=cursor` exactly once, never past the
end). -/
theorem claim3_streaming_extractor {α : Type} (records : List α) (indices : List Nat)
    (d : α) (next : Nat) (hne : records ≠ [])
    (hsort : indices.Sorted (· ≤ ·))
    (hrange : ∀ i ∈ indices, i < records.length) :
    ∃ out, copyEntries records indices next = .ok out ∧
      out.emitted.map Prod.snd = indices.map (fun i => records.getD i d) ∧
      out.emitted.map Prod.fst = (List.range' next indices.length).map Nat.repr ∧
      out.next = next + indices.length ∧
      out.cursor = lastOr 0 indices ∧ out.cursor < records.length := by
  refine ⟨_, copyEntries_spec records d indices next hne hsort hrange,
    emitSpec_map_snd records d indices next, emitSpec_map_fst records d indices next,
    rfl, rfl, ?_⟩
  rcases eq_or_ne indices [] with rfl | hne'
  · simpa [lastOr] using List.length_pos.mpr hne
  · exact hrange _ (lastOr_mem indices 0 hne')

/-- C3 witness: the spec's own example — six records, index sequence
`[2, 2, 5]`, writer counter starting at `7` — emits `[R2, R2, R5]` under
identifiers `7, 8, 9` with final cursor `5`. -/
theorem claim3_streaming_extractor_witness :
    ∃ out, copyEntries [10, 20, 30, 40, 50, 60] [2, 2, 5] 7 = .ok out ∧
      out.emitted.map Prod.snd =
        ([2, 2, 5] : List Nat).map (fun i => [10, 20, 30, 40, 50, 60].getD i 0) ∧
      out.emitted.map Prod.fst = (List.range' 7 ([2, 2, 5] : List Nat).length).map Nat.repr ∧
      out.next = 7 + ([2, 2, 5] : List Nat).length ∧
      out.cursor = lastOr 0 [2, 2, 5] ∧
      out.cursor < ([10, 20, 30, 40, 50, 60] : List Nat).length :=
  claim3_streaming_extractor [10, 20, 30, 40, 50, 60] [2, 2, 5] 0 7
    (by decide) (by decide) (by decide)

/-! ## Concatenation lemmas and claim C7 -/

lemma concatGo_spec {α : Type} :
    ∀ (files : List (List α)) (next : Nat),
    ∃ emitted,
      concatGo ((files.map List.length).zip files) next =
        .ok (emitted, next + (files.map List.length).sum) ∧
      emitted.map Prod.fst = (List.range' next ((files.map List.length).sum)).map Nat.repr ∧
      emitted.length = (files.map List.length).sum := by
  intro files
  induction files with
  | nil =>
    intro next
    exact ⟨[], by simp [concatGo], by simp, by simp⟩
  | cons f rest ih =>
    intro next
    by_cases hf : f.length = 0
    · obtain ⟨em, hgo, hfst, hlen⟩ := ih next
      refine ⟨em, ?_, ?_, ?_⟩
      · rw [List.map_cons, List.zip_cons_cons, concatGo, if_pos hf, hgo, List.sum_cons, hf]
        norm_num
      · simp [hf, hfst]
      · simp [hf, hlen]
    · have hne : f ≠ [] := by
        intro hh; rw [hh] at hf; exact hf rfl
      have hcopy := copyEntries_spec f (f.head hne) (List.range f.length) next hne
        ((List.sorted_lt_range _).imp fun hab => le_of_lt hab)
        (fun i hi => List.mem_range.mp hi)
      obtain ⟨em, hgo, hfst, hlen⟩ := ih (next + f.length)
      have hr := List.range'_append next f.length ((rest.map List.length).sum) 1
      rw [one_mul, Nat.add_comm ((rest.map List.length).sum) f.length] at hr
      refine ⟨emitSpec f (f.head hne) next (List.range f.length) ++ em, ?_, ?_, ?_⟩
      · rw [List.map_cons, List.zip_cons_cons, concatGo, if_neg hf]
        simp only [hcopy, List.length_range, hgo]
        rw [List.sum_cons, Nat.add_assoc]
      · rw [List.map_append, emitSpec_map_fst, List.length_range, hfst,
          ← List.map_append, List.map_cons, List.sum_cons, hr]
      · rw [List.length_append, emitSpec_length, List.length_range, hlen,
          List.map_cons, List.sum_cons]

/-- C7: whenever concatenation mode completes, the number of emitted records
equals the sum of the input files' record counts, and the emitted
identifiers are exactly the decimal forms of `0, 1, …, N-1` in emission
order — the writer counter starts at `0` and is incremented by exactly one
per written record. -/
theorem claim7_concatenation_dense_ids {α : Type} (files : List (List α)) (allowRep : Bool)
    (seed : Nat → Nat) (out : List (String × α))
    (h : runProgram files none allowRep seed = .ok out) :
    out.length = (files.map List.length).sum ∧
    out.map Prod.fst = (List.range ((files.map List.length).sum)).map Nat.repr := by
  rcases hcat : cataloguer files with e | p
  · simp only [runProgram, hcat] at h
    cases h
  · obtain ⟨counts, s⟩ := p
    have hshape := cataloguer_ok_shape files counts s hcat
    subst hshape
    simp only [runProgram, hcat] at h
    obtain ⟨em, hgo, hfst, hlen⟩ := concatGo_spec files 0
    simp only [hgo] at h
    cases h
    rw [List.range_eq_range']
    exact ⟨hlen, hfst⟩

/-- C7 witness: three files with `1`, `0` and `2` records concatenate to
three records under the identifiers `"0", "1", "2"`. -/
theorem claim7_concatenation_dense_ids_witness :
    ([("0", 5), ("1", 6), ("2", 7)] : List (String × Nat)).length =
      ([[5], [], [6, 7]].map List.length).sum ∧
    ([("0", 5), ("1", 6), ("2", 7)] : List (String × Nat)).map Prod.fst =
      (List.range (([[5], [], [6, 7]].map List.length).sum)).map Nat.repr :=
  claim7_concatenation_dense_ids [[5], [], [6, 7]] false (fun _ => 0)
    [("0", 5), ("1", 6), ("2", 7)] (by decide)

/-! ## Index Selector lemmas: the Fisher–Yates shuffle permutes -/

lemma cons_set_perm {α : Type} :
    ∀ (t : List α) (k : Nat) (hk : k < t.length) (a : α),
    List.Perm (t.get ⟨k, hk⟩ :: t.set k a) (a :: t) := by
  intro t
  induction t with
  | nil => intro k hk a; simp at hk
  | cons b t' ih =>
    intro k hk a
    cases k with
    | zero =>
      simp only [List.get_cons_zero, List.set_cons_zero]
      exact List.Perm.swap a b t'
    | succ k =>
      have hk' : k < t'.length := by simpa using hk
      simp only [List.get_cons_succ, List.set_cons_succ]
      exact ((List.Perm.swap b _ _).trans ((ih k hk' a).cons b)).trans (List.Perm.swap a b t')

lemma listSwap_swap_core {α : Type} :
    ∀ (l : List α) (i j : Nat) (hi : i < l.length) (hj : j < l.length),
    List.Perm ((l.set i (l.get ⟨j, hj⟩)).set j (l.get ⟨i, hi⟩)) l := by
  intro l
  induction l with
  | nil => intro i j hi _; simp at hi
  | cons x t ih =>
    intro i j hi hj
    cases i with
    | zero =>
      cases j with
      | zero => simp
      | succ k =>
        have hk : k < t.length := by simpa using hj
        simp only [List.get_cons_zero, List.get_cons_succ, List.set_cons_zero,
          List.set_cons_succ]
        exact cons_set_perm t k hk x
    | succ m =>
      cases j with
      | zero =>
        have hm : m < t.length := by simpa using hi
        simp only [List.get_cons_zero, List.get_cons_succ, List.set_cons_zero,
          List.set_cons_succ]
        exact cons_set_perm t m hm x
      | succ k =>
        have hm : m < t.length := by simpa using hi
        have hk : k < t.length := by simpa using hj
        simp only [List.get_cons_succ, List.set_cons_succ]
        exact (ih m k hm hk).cons x

lemma listSwap_perm {α : Type} (l : List α) (i j : Nat) :
    List.Perm (listSwap l i j) l := by
  rw [listSwap]
  split
  · rename_i a b hi hj
    obtain ⟨hi', rfl⟩ := List.getElem?_eq_some.mp hi
    obtain ⟨hj', rfl⟩ := List.getElem?_eq_some.mp hj
    simpa [List.get_eq_getElem] using listSwap_swap_core l i j hi' hj'
  all_goals exact List.Perm.refl l

lemma shuffleGo_perm {α : Type} (seed : Nat → Nat) :
    ∀ (k : Nat) (l : List α) (pos : Nat), List.Perm (shuffleGo seed k l pos).1 l := by
  intro k
  induction k with
  | zero => intro l pos; exact List.Perm.refl l
  | succ k ih =>
    intro l pos
    rw [shuffleGo]
    exact (ih _ _).trans (listSwap_perm l (k + 1) (seed pos % (k + 2)))

lemma shuffleGo_pos {α : Type} (seed : Nat → Nat) :
    ∀ (k : Nat) (l : List α) (pos : Nat), (shuffleGo seed k l pos).2 = pos + k := by
  intro k
  induction k with
  | zero => intro l pos; rfl
  | succ k ih =>
    intro l pos
    rw [shuffleGo, ih]
    omega

lemma shuffleList_perm {α : Type} (l : List α) (seed : Nat → Nat) (pos : Nat) :
    List.Perm (shuffleList l seed pos).1 l :=
  shuffleGo_perm seed (l.length - 1) l pos

/-! ## Theorem for claim C6 -/

/-- C6: the without-repetition Index Selector, on a file of `entryCount`
records with a planned per-file amount of at most `entryCount` (the
planner's invariant enforced by the `assert!`), produces exactly
`amountPerFile` pairwise-distinct indices, all in `[0, entryCount)`, sorted
ascending — the identity permutation is fully shuffled, truncated to the
first `amountPerFile` elements, and sorted. -/
theorem claim6_selector_without_rep (entryCount amountPerFile : Nat) (seed : Nat → Nat)
    (pos : Nat) (h : amountPerFile ≤ entryCount) :
    ∃ out p', selectWithoutRep entryCount amountPerFile seed pos = .ok (out, p') ∧
      out.length = amountPerFile ∧ out.Nodup ∧ (∀ i ∈ out, i < entryCount) ∧
      out.Sorted (· ≤ ·) := by
  rcases hsh : shuffleList (List.range entryCount) seed pos with ⟨shuffled, pos'⟩
  have hperm : List.Perm shuffled (List.range entryCount) := by
    have hp := shuffleList_perm (List.range entryCount) seed pos
    rw [hsh] at hp
    exact hp
  have hlenp : shuffled.length = entryCount := by
    rw [hperm.length_eq, List.length_range]
  have hresize : vecResize shuffled amountPerFile 0 = shuffled.take amountPerFile := by
    rw [vecResize, if_pos (by rw [hlenp]; exact h)]
  have hsortperm := List.perm_insertionSort (· ≤ ·) (shuffled.take amountPerFile)
  rw [selectWithoutRep, if_neg (by omega)]
  simp only [hsh]
  rw [hresize]
  refine ⟨_, _, rfl, ?_, ?_, ?_, List.sorted_insertionSort _ _⟩
  · rw [hsortperm.length_eq, List.length_take, hlenp]
    omega
  · exact hsortperm.nodup_iff.mpr
      (((hperm.nodup_iff.mpr (List.nodup_range entryCount)).sublist
        (List.take_sublist _ _)))
  · intro i hi
    have hi1 : i ∈ shuffled.take amountPerFile := hsortperm.subset hi
    have hi2 : i ∈ shuffled := (List.take_sublist _ _).subset hi1
    exact List.mem_range.mp (hperm.subset hi2)

/-- C6 witness: `entryCount = 3`, `amountPerFile = 2` under the
constant-zero RNG stream. -/
theorem claim6_selector_without_rep_witness :
    ∃ out p', selectWithoutRep 3 2 (fun _ => 0) 0 = .ok (out, p') ∧
      out.length = 2 ∧ out.Nodup ∧ (∀ i ∈ out, i < 3) ∧ out.Sorted (· ≤ ·) :=
  claim6_selector_without_rep 3 2 (fun _ => 0) 0 (by decide)

/-! ## Determinism: the RNG stream is consumed in a fixed order, so two
streams that agree on the consumed positions produce identical runs -/

lemma planWithRepLoop_agree (counts : List Nat) {s1 s2 : Nat → Nat} :
    ∀ (n : Nat) (tally : List Nat) (pos : Nat),
    (∀ k, pos ≤ k → k < pos + n → s1 k = s2 k) →
    planWithRepLoop counts s1 n tally pos = planWithRepLoop counts s2 n tally pos := by
  intro n
  induction n with
  | zero => intro tally pos _; rfl
  | succ n ih =>
    intro tally pos hagree
    have h0 : s2 pos = s1 pos := (hagree pos le_rfl (by omega)).symm
    rw [planWithRepLoop, planWithRepLoop, h0]
    rcases hc : checkedIncr tally (weightedIndexSample counts (s1 pos % counts.sum))
      with e | t'
    · simp only [hc]
    · simp only [hc]
      exact ih t' (pos + 1) (fun k hk1 hk2 => hagree k (by omega) (by omega))

lemma planNoRepLoop_agree {s1 s2 : Nat → Nat} :
    ∀ (n : Nat) (remaining tally : List Nat) (pos : Nat),
    (∀ k, pos ≤ k → k < pos + n → s1 k = s2 k) →
    planNoRepLoop s1 n remaining tally pos = planNoRepLoop s2 n remaining tally pos := by
  intro n
  induction n with
  | zero => intro remaining tally pos _; rfl
  | succ n ih =>
    intro remaining tally pos hagree
    have h0 : s2 pos = s1 pos := (hagree pos le_rfl (by omega)).symm
    rw [planNoRepLoop, planNoRepLoop, h0]
    rcases hc : checkedIncr tally (weightedIndexSample remaining (s1 pos % remaining.sum))
      with e | t'
    · simp only [hc]
    · simp only [hc]
      split
      · rfl
      · exact ih _ t' (pos + 1) (fun k hk1 hk2 => hagree k (by omega) (by omega))

lemma planWithRep_agree (counts : List Nat) (amount : Nat) {s1 s2 : Nat → Nat} (pos : Nat)
    (h : ∀ k, pos ≤ k → k < pos + amount → s1 k = s2 k) :
    planWithRep counts amount s1 pos = planWithRep counts amount s2 pos := by
  rw [planWithRep, planWithRep]
  rcases hw : weightedIndexNew counts with _ | ws
  · simp only [hw]
  · simp only [hw]
    exact planWithRepLoop_agree counts amount _ pos h

lemma planWithoutRep_agree (counts : List Nat) (amount : Nat) {s1 s2 : Nat → Nat} (pos : Nat)
    (h : ∀ k, pos ≤ k → k < pos + amount → s1 k = s2 k) :
    planWithoutRep counts amount s1 pos = planWithoutRep counts amount s2 pos := by
  rw [planWithoutRep, planWithoutRep]
  rcases hw : weightedIndexNew counts with _ | ws
  · simp only [hw]
  · simp only [hw]
    exact planNoRepLoop_agree amount counts _ pos h

lemma shuffleGo_agree {α : Type} {s1 s2 : Nat → Nat} :
    ∀ (k : Nat) (l : List α) (pos : Nat),
    (∀ m, pos ≤ m → m < pos + k → s1 m = s2 m) →
    shuffleGo s1 k l pos = shuffleGo s2 k l pos := by
  intro k
  induction k with
  | zero => intro l pos _; rfl
  | succ k ih =>
    intro l pos hagree
    have h0 : s2 pos = s1 pos := (hagree pos le_rfl (by omega)).symm
    rw [shuffleGo, shuffleGo, h0]
    exact ih _ (pos + 1) (fun m hm1 hm2 => hagree m (by omega) (by omega))

lemma sampleUniformList_agree {s1 s2 : Nat → Nat} (c amount pos : Nat)
    (h : ∀ k, pos ≤ k → k < pos + amount → s1 k = s2 k) :
    sampleUniformList c amount s1 pos = sampleUniformList c amount s2 pos := by
  rw [sampleUniformList, sampleUniformList]
  congr 1
  refine List.map_congr_left ?_
  intro k hk
  have hk' : k < amount := List.mem_range.mp hk
  rw [h (pos + k) (by omega) (by omega)]

lemma selectWithRep_agree {s1 s2 : Nat → Nat} (c a pos : Nat)
    (h : ∀ k, pos ≤ k → k < pos + a → s1 k = s2 k) :
    selectWithRep c a s1 pos = selectWithRep c a s2 pos := by
  rw [selectWithRep, selectWithRep, sampleUniformList_agree c a pos h]

lemma selectWithRep_pos {c a pos : Nat} {seed : Nat → Nat} {ind : List Nat} {p' : Nat}
    (h : selectWithRep c a seed pos = .ok (ind, p')) : p' = pos + a := by
  rw [selectWithRep] at h
  split at h
  · cases h
  · rw [sampleUniformList] at h
    simp only [Except.ok.injEq, Prod.mk.injEq] at h
    exact h.2.symm

lemma selectWithoutRep_agree {s1 s2 : Nat → Nat} (c a pos : Nat)
    (h : ∀ k, pos ≤ k → k < pos + (c - 1) → s1 k = s2 k) :
    selectWithoutRep c a s1 pos = selectWithoutRep c a s2 pos := by
  rw [selectWithoutRep, selectWithoutRep]
  have hsh : shuffleList (List.range c) s1 pos = shuffleList (List.range c) s2 pos := by
    rw [shuffleList, shuffleList, List.length_range]
    exact shuffleGo_agree (c - 1) _ pos h
  rw [hsh]

lemma selectWithoutRep_pos {c a pos : Nat} {seed : Nat → Nat} {ind : List Nat} {p' : Nat}
    (h : selectWithoutRep c a seed pos = .ok (ind, p')) : p' = pos + (c - 1) := by
  rw [selectWithoutRep] at h
  split at h
  · cases h
  · rcases hsh : shuffleList (List.range c) seed pos with ⟨shuffled, pos2⟩
    rw [hsh] at h
    simp only [Except.ok.injEq, Prod.mk.injEq] at h
    have hp2 : pos2 = pos + (c - 1) := by
      have hg := shuffleGo_pos seed ((List.range c).length - 1) (List.range c) pos
      rw [List.length_range] at hg
      rw [shuffleList, List.length_range] at hsh
      rw [hsh] at hg
      simpa using hg
    rw [← h.2, hp2]

lemma extractWithRep_agree {α : Type} {s1 s2 : Nat → Nat} :
    ∀ (triples : List (Nat × Nat × List α)) (next pos : Nat),
    (∀ k, pos ≤ k → k < pos + (triples.map (fun t => t.2.1)).sum → s1 k = s2 k) →
    extractWithRep s1 triples next pos = extractWithRep s2 triples next pos := by
  intro triples
  induction triples with
  | nil => intro next pos _; rfl
  | cons hd rest ih =>
    obtain ⟨c, a, file⟩ := hd
    intro next pos hagree
    simp only [List.map_cons, List.sum_cons] at hagree
    rw [extractWithRep, extractWithRep]
    by_cases ha : a = 0
    · rw [if_pos ha, if_pos ha]
      exact ih next pos (fun k hk1 hk2 => hagree k (by omega) (by omega))
    · rw [if_neg ha, if_neg ha]
      have hsel : selectWithRep c a s1 pos = selectWithRep c a s2 pos :=
        selectWithRep_agree c a pos (fun k hk1 hk2 => hagree k (by omega) (by omega))
      rw [← hsel]
      rcases hs : selectWithRep c a s1 pos with e | ⟨indices, pos'⟩
      · simp only [hs]
      · simp only [hs]
        have hpos' : pos' = pos + a := selectWithRep_pos hs
        rcases hcp : copyEntries file indices next with e | out
        · simp only [hcp]
        · simp only [hcp]
          have hrest := ih out.next pos'
            (fun k hk1 hk2 => hagree k (by omega) (by omega))
          rw [hrest]

lemma extractWithoutRep_agree {α : Type} {s1 s2 : Nat → Nat} :
    ∀ (triples : List (Nat × Nat × List α)) (next pos : Nat),
    (∀ k, pos ≤ k → k < pos + (triples.map (fun t => t.1)).sum → s1 k = s2 k) →
    extractWithoutRep s1 triples next pos = extractWithoutRep s2 triples next pos := by
  intro triples
  induction triples with
  | nil => intro next pos _; rfl
  | cons hd rest ih =>
    obtain ⟨c, a, file⟩ := hd
    intro next pos hagree
    simp only [List.map_cons, List.sum_cons] at hagree
    rw [extractWithoutRep, extractWithoutRep]
    by_cases ha : a = 0
    · rw [if_pos ha, if_pos ha]
      exact ih next pos (fun k hk1 hk2 => hagree k (by omega) (by omega))
    · rw [if_neg ha, if_neg ha]
      have hsel : selectWithoutRep c a s1 pos = selectWithoutRep c a s2 pos :=
        selectWithoutRep_agree c a pos (fun k hk1 hk2 => hagree k (by omega) (by omega))
      rw [← hsel]
      rcases hs : selectWithoutRep c a s1 pos with e | ⟨indices, pos'⟩
      · simp only [hs]
      · simp only [hs]
        have hpos' : pos' = pos + (c - 1) := selectWithoutRep_pos hs
        rcases hcp : copyEntries file indices next with e | out
        · simp only [hcp]
        · simp only [hcp]
          have hrest := ih out.next pos'
            (fun k hk1 hk2 => hagree k (by omega) (by omega))
          rw [hrest]

lemma zip_map_amounts {α : Type} {counts tally : List Nat} {files : List (List α)}
    (h1 : tally.length = counts.length) (h2 : files.length = counts.length) :
    (counts.zip (tally.zip files)).map (fun t => t.2.1) = tally := by
  have hz : (tally.zip files).length = counts.length := by
    rw [List.length_zip]; omega
  have hstep : (counts.zip (tally.zip files)).map Prod.snd = tally.zip files :=
    List.map_snd_zip _ _ (by omega)
  have : (counts.zip (tally.zip files)).map (fun t => t.2.1) =
      ((counts.zip (tally.zip files)).map Prod.snd).map Prod.fst := by
    rw [List.map_map]; rfl
  rw [this, hstep]
  exact List.map_fst_zip _ _ (by omega)

lemma zip_map_counts {α : Type} {counts tally : List Nat} {files : List (List α)}
    (h1 : tally.length = counts.length) (h2 : files.length = counts.length) :
    (counts.zip (tally.zip files)).map (fun t => t.1) = counts := by
  have hz : (tally.zip files).length = counts.length := by
    rw [List.length_zip]; omega
  exact List.map_fst_zip _ _ (by omega)

/-- C9: the whole program is a deterministic function of the inputs, the
options and the RNG stream: the single stream is consumed in the fixed
order planning-then-per-file-selection (counting uses no randomness), one
value per draw, so two streams that agree on every position the run can
consume — at most `amount` for planning plus `amount` (with repetition) or
the total record count (without) for index selection — give identical
outputs.  In particular a fixed seed reproduces a fixed output. -/
theorem claim9_deterministic_given_seed {α : Type} (files : List (List α))
    (amount : Option Nat) (allowRep : Bool) (s1 s2 : Nat → Nat)
    (h : ∀ k, k < 2 * amount.getD 0 + (files.map List.length).sum → s1 k = s2 k) :
    runProgram files amount allowRep s1 = runProgram files amount allowRep s2 := by
  rcases hcat : cataloguer files with e | p
  · simp only [runProgram, hcat]
  · obtain ⟨counts, s⟩ := p
    have hshape := cataloguer_ok_shape files counts s hcat
    have hflen : files.length = counts.length := by rw [hshape, List.length_map]
    have hcsum : counts.sum = (files.map List.length).sum := by rw [hshape]
    rcases amount with _ | amt
    · simp only [runProgram, hcat]
    · simp only [Option.getD_some] at h
      by_cases hrep : allowRep
      · have hplan : planWithRep counts amt s1 0 = planWithRep counts amt s2 0 :=
          planWithRep_agree counts amt 0 (fun k hk1 hk2 => h k (by omega))
        rcases hp : planWithRep counts amt s1 0 with e | q
        · have hp2 : planWithRep counts amt s2 0 = .error e := by rw [← hplan, hp]
          simp only [runProgram, hcat, hrep, if_pos, hp, hp2]
        · obtain ⟨tally, pos⟩ := q
          have hp2 : planWithRep counts amt s2 0 = .ok (tally, pos) := by rw [← hplan, hp]
          obtain ⟨l1, l2, l3, _⟩ := planWithRep_spec hp
          have hmounts := zip_map_amounts l1 hflen
          have hext : extractWithRep s1 (counts.zip (tally.zip files)) 0 pos =
              extractWithRep s2 (counts.zip (tally.zip files)) 0 pos := by
            refine extractWithRep_agree _ 0 pos ?_
            rw [hmounts, l2]
            intro k hk1 hk2
            exact h k (by omega)
          simp only [runProgram, hcat, hrep, if_pos, hp, hp2, hext]
      · have hplan : planWithoutRep counts amt s1 0 = planWithoutRep counts amt s2 0 :=
          planWithoutRep_agree counts amt 0 (fun k hk1 hk2 => h k (by omega))
        rcases hp : planWithoutRep counts amt s1 0 with e | q
        · have hp2 : planWithoutRep counts amt s2 0 = .error e := by rw [← hplan, hp]
          simp only [runProgram, hcat, hrep, if_neg, hp, hp2]
          rfl
        · obtain ⟨tally, pos⟩ := q
          have hp2 : planWithoutRep counts amt s2 0 = .ok (tally, pos) := by rw [← hplan, hp]
          obtain ⟨l1, l2, l3, _⟩ := planWithoutRep_spec hp
          have hcounts := zip_map_counts l1 hflen
          have hext : extractWithoutRep s1 (counts.zip (tally.zip files)) 0 pos =
              extractWithoutRep s2 (counts.zip (tally.zip files)) 0 pos := by
            refine extractWithoutRep_agree _ 0 pos ?_
            rw [hcounts, hcsum]
            intro k hk1 hk2
            exact h k (by omega)
          simp only [runProgram, hcat, hrep, if_neg, hp, hp2, hext]
          rfl

/-- C9 witness: two files with 1 and 2 records, `--amount 2
--allow-repetitions`, under two different streams that agree on the first
`2·2 + 3 = 7` positions. -/
theorem claim9_deterministic_given_seed_witness :
    runProgram [[10], [20, 30]] (some 2) true (fun _ => 0) =
      runProgram [[10], [20, 30]] (some 2) true (fun k => if k < 7 then 0 else 99) :=
  claim9_deterministic_given_seed [[10], [20, 30]] (some 2) true
    (fun _ => 0) (fun k => if k < 7 then 0 else 99) (by decide)

end SelectRandomFastx
